import Mathlib

/-!
Verification of the graphbolt CUDA index/ID-transformation operations
(`graphbolt/cuda_ops.h`) against their documented contracts.

The repository ships only the interface header with the behavioural
documentation of each operation; the kernel bodies are not part of the
sources available here.  Each operation is therefore modelled from its
documented contract as a pure function on `List Nat`, with tensors
represented as lists, optional tensor arguments as `Option`, and the
fallible size-hinted entry points returning `Option` results.
-/

namespace Graphbolt

/-- A valid CSC offset array: nonempty, starts at `0`, monotonically
non-decreasing.  `indptr.length = N + 1` for a graph with `N` nodes. -/
def ValidIndptr (indptr : List Nat) : Prop :=
  indptr ≠ [] ∧ indptr.getD 0 0 = 0 ∧ List.Pairwise (fun a b => a ≤ b) indptr

instance : DecidablePred ValidIndptr := fun l =>
  inferInstanceAs (Decidable
    (l ≠ [] ∧ l.getD 0 0 = 0 ∧ List.Pairwise (fun a b => a ≤ b) l))

/-- The degree of node `n` read off an offset array:
`indptr[n + 1] - indptr[n]`. -/
def degreeOf (indptr : List Nat) (n : Nat) : Nat :=
  indptr.getD (n + 1) 0 - indptr.getD n 0

/-- Modelled from the spec: `ExclusiveCumSum` (kernel body absent from the
sources) — exclusive prefix sum, `r[i] = \sum_{j=0}^{i-1} input[j]`, output
length equal to input length. -/
def ExclusiveCumSum (input : List Nat) : List Nat :=
  (List.range input.length).map (fun i => (input.take i).sum)

/-- Modelled from the spec: `SliceCSCIndptr` (kernel body absent from the
sources) — returns `(indptr[nodes + 1] - indptr[nodes], indptr[nodes])`;
the indegree tensor carries one extra sentinel entry so that
`ExclusiveCumSum` of it yields the output indptr.  When `nodes` is absent it
defaults to `0 .. indptr.length - 2`. -/
def SliceCSCIndptr (indptr : List Nat) (nodes : Option (List Nat)) :
    List Nat × List Nat :=
  let ns := nodes.getD (List.range (indptr.length - 1))
  (ns.map (fun n => degreeOf indptr n) ++ [0],
   ns.map (fun n => indptr.getD n 0))

/-- Modelled from the spec: the always-succeeding core of
`IndexSelectCSCImpl` (kernel body absent from the sources) — the new indptr
is the exclusive prefix sum of the selected degrees, and the new indices are
the selected nodes' neighbor segments copied back to back. -/
def IndexSelectCSCCore (indptr indices nodes : List Nat) :
    List Nat × List Nat :=
  (ExclusiveCumSum (SliceCSCIndptr indptr (some nodes)).1,
   (nodes.map (fun n =>
      (indices.drop (indptr.getD n 0)).take (degreeOf indptr n))).flatten)

/-- Modelled from the spec: `IndexSelectCSCImpl` (kernel body absent from the
sources) — the convenience overload taking `(indptr, indices, nodes)` and an
optional `output_size` hint; a hint inconsistent with the true output size
fails loudly (spec §7(d)) and no partial output is produced. -/
def IndexSelectCSCImpl (indptr indices nodes : List Nat)
    (output_size : Option Nat) : Option (List Nat × List Nat) :=
  let r := IndexSelectCSCCore indptr indices nodes
  match output_size with
  | some sz => if sz = r.2.length then some r else none
  | none => some r

/-- Modelled from the spec: the always-succeeding core of `ExpandIndptrImpl`
(kernel body absent from the sources) — every position inside node `i`'s
segment receives `node_ids[i]`; `node_ids` defaults to `0 .. N - 1`. -/
def ExpandIndptrCore (indptr : List Nat) (node_ids : Option (List Nat)) :
    List Nat :=
  let n := indptr.length - 1
  let ids := node_ids.getD (List.range n)
  ((List.range n).map (fun i =>
    List.replicate (degreeOf indptr i) (ids.getD i 0))).flatten

/-- Modelled from the spec: `ExpandIndptrImpl` (kernel body absent from the
sources) — with an optional `output_size` hint validated as in spec §7(d). -/
def ExpandIndptrImpl (indptr : List Nat) (node_ids : Option (List Nat))
    (output_size : Option Nat) : Option (List Nat) :=
  let r := ExpandIndptrCore indptr node_ids
  match output_size with
  | some sz => if sz = r.length then some r else none
  | none => some r

/-- First-occurrence deduplication of `l`, skipping every element that occurs
in `avoid`. -/
def dedupExcluding (avoid : List Nat) : List Nat → List Nat
  | [] => []
  | a :: l =>
      if a ∈ avoid then dedupExcluding avoid l
      else a :: dedupExcluding (a :: avoid) l

/-- Modelled from the spec: `UniqueAndCompact` (kernel body absent from the
sources) — `unique_ids` keeps `unique_dst_ids` as its head, followed by the
remaining distinct IDs in first-occurrence order of the concatenated
(destination, source) scan; both endpoint arrays are rewritten to positions
inside `unique_ids`.  `num_bits` only bounds the sort radix and does not
affect the result. -/
def UniqueAndCompact (src_ids dst_ids unique_dst_ids : List Nat)
    (num_bits : Nat) : List Nat × List Nat × List Nat :=
  let unique_ids :=
    unique_dst_ids ++ dedupExcluding unique_dst_ids (dst_ids ++ src_ids)
  (unique_ids,
   src_ids.map (fun x => unique_ids.indexOf x),
   dst_ids.map (fun x => unique_ids.indexOf x))

theorem getD_map_of_lt {α β : Type} (f : α → β) (l : List α) {j : Nat}
    (hj : j < l.length) (d : β) (d' : α) :
    (l.map f).getD j d = f (l.getD j d') := by
  rw [List.getD_eq_getElem (l.map f) d (by simpa using hj),
    List.getD_eq_getElem l d' hj, List.getElem_map]

theorem validIndptr_mono {l : List Nat} (h : ValidIndptr l) {i j : Nat}
    (hij : i ≤ j) (hj : j < l.length) : l.getD i 0 ≤ l.getD j 0 := by
  obtain ⟨-, -, hc⟩ := h
  have hi : i < l.length := Nat.lt_of_le_of_lt hij hj
  rcases Nat.lt_or_ge i j with hlt | hge
  · rw [List.getD_eq_getElem l 0 hi, List.getD_eq_getElem l 0 hj]
    exact List.pairwise_iff_getElem.mp hc i j hi hj hlt
  · have : i = j := Nat.le_antisymm hij hge
    subst this; exact le_rfl

theorem sum_range_degreeOf {indptr : List Nat} (h : ValidIndptr indptr)
    {i : Nat} (hi : i < indptr.length) :
    ((List.range i).map (degreeOf indptr)).sum = indptr.getD i 0 := by
  induction i with
  | zero => simpa using h.2.1.symm
  | succ k ih =>
      rw [List.range_succ, List.map_append, List.sum_append]
      have hk : k < indptr.length := Nat.lt_of_succ_lt hi
      rw [ih hk]
      simp only [List.map_cons, List.map_nil, List.sum_cons, List.sum_nil,
        add_zero, degreeOf]
      have hmono := validIndptr_mono h (Nat.le_succ k) hi
      simp only [Nat.succ_eq_add_one] at hmono ⊢
      omega

theorem length_segment {indptr indices : List Nat} (h : ValidIndptr indptr)
    (hidx : indices.length = indptr.getD (indptr.length - 1) 0) {n : Nat}
    (hn1 : n + 1 < indptr.length) :
    ((indices.drop (indptr.getD n 0)).take (degreeOf indptr n)).length
      = degreeOf indptr n := by
  have h1 := validIndptr_mono h (Nat.le_succ n) hn1
  have h2 := validIndptr_mono h (show n + 1 ≤ indptr.length - 1 by omega)
    (show indptr.length - 1 < indptr.length by omega)
  simp only [List.length_take, List.length_drop, degreeOf] at *
  omega

theorem exclusiveCumSum_length (l : List Nat) :
    (ExclusiveCumSum l).length = l.length := by
  simp [ExclusiveCumSum]

theorem exclusiveCumSum_getD (l : List Nat) {j : Nat} (hj : j < l.length) :
    (ExclusiveCumSum l).getD j 0 = (l.take j).sum := by
  rw [List.getD_eq_getElem _ 0 (by simpa [exclusiveCumSum_length] using hj)]
  simp [ExclusiveCumSum]

theorem exclusiveCumSum_pairwise (l : List Nat) :
    List.Pairwise (fun a b => a ≤ b) (ExclusiveCumSum l) := by
  rw [List.pairwise_iff_getElem]
  intro i j hi hj hij
  simp only [ExclusiveCumSum, List.getElem_map, List.getElem_range]
  simp only [ExclusiveCumSum, List.length_map, List.length_range] at hi hj
  have : l.take i = (l.take j).take i := by
    rw [List.take_take, Nat.min_eq_left (Nat.le_of_lt hij)]
  rw [this]
  calc ((l.take j).take i).sum
      ≤ ((l.take j).take i).sum + ((l.take j).drop i).sum := Nat.le_add_right _ _
    _ = (l.take j).sum := by rw [← List.sum_append, List.take_append_drop]

theorem indexSelectCSCCore_segments {indptr indices nodes : List Nat}
    (h : ValidIndptr indptr)
    (hidx : indices.length = indptr.getD (indptr.length - 1) 0)
    (hn : ∀ n ∈ nodes, n + 1 < indptr.length) :
    ((nodes.map (fun n =>
        (indices.drop (indptr.getD n 0)).take (degreeOf indptr n))).map
      List.length) = nodes.map (degreeOf indptr) := by
  rw [List.map_map]
  exact List.map_congr_left (fun n hmem =>
    length_segment h hidx (hn n hmem))

theorem mem_dedupExcluding (x : Nat) :
    ∀ (l avoid : List Nat),
      x ∈ dedupExcluding avoid l ↔ x ∈ l ∧ x ∉ avoid := by
  intro l
  induction l with
  | nil => intro avoid; simp [dedupExcluding]
  | cons a l ih =>
      intro avoid
      by_cases ha : a ∈ avoid
      · rw [dedupExcluding, if_pos ha, ih avoid]
        constructor
        · rintro ⟨hxl, hxa⟩
          exact ⟨List.mem_cons_of_mem a hxl, hxa⟩
        · rintro ⟨hx, hxa⟩
          rcases List.mem_cons.mp hx with rfl | hxl
          · exact absurd ha hxa
          · exact ⟨hxl, hxa⟩
      · rw [dedupExcluding, if_neg ha]
        constructor
        · intro hx
          rcases List.mem_cons.mp hx with rfl | hmem
          · exact ⟨List.mem_cons_self _ _, ha⟩
          · have hm := (ih (a :: avoid)).mp hmem
            exact ⟨List.mem_cons_of_mem _ hm.1,
              fun hav => hm.2 (List.mem_cons_of_mem _ hav)⟩
        · rintro ⟨hx, hxa⟩
          rcases List.mem_cons.mp hx with rfl | hxl
          · exact List.mem_cons_self _ _
          · by_cases hxeq : x = a
            · subst hxeq; exact List.mem_cons_self _ _
            · refine List.mem_cons_of_mem _ ((ih (a :: avoid)).mpr ⟨hxl, ?_⟩)
              intro hmem
              rcases List.mem_cons.mp hmem with h1 | h2
              · exact hxeq h1
              · exact hxa h2

theorem nodup_dedupExcluding :
    ∀ (l avoid : List Nat), (dedupExcluding avoid l).Nodup := by
  intro l
  induction l with
  | nil => intro avoid; simp [dedupExcluding]
  | cons a l ih =>
      intro avoid
      rw [dedupExcluding]
      by_cases ha : a ∈ avoid
      · rw [if_pos ha]; exact ih avoid
      · rw [if_neg ha]
        refine List.nodup_cons.mpr ⟨?_, ih (a :: avoid)⟩
        intro hmem
        exact ((mem_dedupExcluding a l (a :: avoid)).mp hmem).2
          (List.mem_cons_self a avoid)

theorem pairwise_indexOf_dedupExcluding :
    ∀ (l avoid : List Nat),
      List.Pairwise (fun a b => l.indexOf a < l.indexOf b)
        (dedupExcluding avoid l) := by
  intro l
  induction l with
  | nil => intro avoid; simp [dedupExcluding]
  | cons a l ih =>
      intro avoid
      rw [dedupExcluding]
      by_cases ha : a ∈ avoid
      · rw [if_pos ha]
        refine List.Pairwise.imp_of_mem ?_ (ih avoid)
        intro b c hb hc hrel
        have hbb := (mem_dedupExcluding b l avoid).mp hb
        have hcc := (mem_dedupExcluding c l avoid).mp hc
        have hba : a ≠ b := fun he => hbb.2 (he ▸ ha)
        have hca : a ≠ c := fun he => hcc.2 (he ▸ ha)
        rw [List.indexOf_cons_ne l hba, List.indexOf_cons_ne l hca]
        exact Nat.succ_lt_succ hrel
      · rw [if_neg ha]
        refine List.pairwise_cons.mpr ⟨?_, ?_⟩
        · intro b hb
          have hbb := (mem_dedupExcluding b l (a :: avoid)).mp hb
          have hba : a ≠ b := fun he =>
            hbb.2 (he ▸ List.mem_cons_self a avoid)
          rw [List.indexOf_cons_self, List.indexOf_cons_ne l hba]
          exact Nat.succ_pos _
        · refine List.Pairwise.imp_of_mem ?_ (ih (a :: avoid))
          intro b c hb hc hrel
          have hbb := (mem_dedupExcluding b l (a :: avoid)).mp hb
          have hcc := (mem_dedupExcluding c l (a :: avoid)).mp hc
          have hba : a ≠ b := fun he =>
            hbb.2 (he ▸ List.mem_cons_self a avoid)
          have hca : a ≠ c := fun he =>
            hcc.2 (he ▸ List.mem_cons_self a avoid)
          rw [List.indexOf_cons_ne l hba, List.indexOf_cons_ne l hca]
          exact Nat.succ_lt_succ hrel

theorem mem_uniqueAndCompact_fst (src dst udst : List Nat) (k : Nat)
    (x : Nat) :
    x ∈ (UniqueAndCompact src dst udst k).1 ↔
      (x ∈ udst ∨ x ∈ src ∨ x ∈ dst) := by
  show x ∈ udst ++ dedupExcluding udst (dst ++ src) ↔ _
  rw [List.mem_append, mem_dedupExcluding, List.mem_append]
  tauto

theorem getD_indexOf {l : List Nat} {x : Nat} (hx : x ∈ l) :
    l.getD (l.indexOf x) 0 = x := by
  rw [List.getD_eq_getElem l 0 (List.indexOf_lt_length.mpr hx)]
  exact List.getElem_indexOf (List.indexOf_lt_length.mpr hx)

theorem getD_self_mem {l : List Nat} {i : Nat} (hi : i < l.length) :
    l.getD i 0 ∈ l := by
  rw [List.getD_eq_getElem l 0 hi]
  exact List.getElem_mem hi

/-- C6: for every valid offset array `indptr` of length `N + 1` and node
subset `nodes` with all values below `N` (defaulting to `0 .. N - 1` when
absent), `SliceCSCIndptr` returns a degrees sequence of length `M + 1` with
`degrees[j] = indptr[nodes[j] + 1] - indptr[nodes[j]]`, and a segment-start
sequence with `segment_start[j] = indptr[nodes[j]]`. -/
theorem sliceCSCIndptr_spec (indptr : List Nat) (nodes : Option (List Nat))
    (h : ValidIndptr indptr)
    (hn : ∀ n ∈ nodes.getD (List.range (indptr.length - 1)),
      n + 1 < indptr.length) :
    let ns := nodes.getD (List.range (indptr.length - 1))
    (SliceCSCIndptr indptr nodes).1.length = ns.length + 1 ∧
    (SliceCSCIndptr indptr nodes).2.length = ns.length ∧
    ∀ j, j < ns.length →
      (SliceCSCIndptr indptr nodes).1.getD j 0
        = indptr.getD (ns.getD j 0 + 1) 0 - indptr.getD (ns.getD j 0) 0 ∧
      (SliceCSCIndptr indptr nodes).2.getD j 0
        = indptr.getD (ns.getD j 0) 0 := by
  intro ns
  refine ⟨by simp [SliceCSCIndptr, ns], by simp [SliceCSCIndptr, ns], ?_⟩
  intro j hj
  constructor
  · show (ns.map (degreeOf indptr) ++ [0]).getD j 0 = _
    rw [List.getD_append _ _ _ _ (by simpa using hj),
      getD_map_of_lt (degreeOf indptr) ns hj 0 0]
    rfl
  · show (ns.map (fun n => indptr.getD n 0)).getD j 0 = _
    rw [getD_map_of_lt (fun n => indptr.getD n 0) ns hj 0 0]

/-- C6 witness: the spec's concrete instance `indptr = [0,2,2,5]`,
`nodes = [2,0]`, giving degrees `[3,2]` and segment starts `[2,0]`. -/
theorem sliceCSCIndptr_spec_witness :
    SliceCSCIndptr [0, 2, 2, 5] (some [2, 0]) = ([3, 2, 0], [2, 0]) ∧
    ValidIndptr [0, 2, 2, 5] ∧
    (let ns := (some [2, 0] : Option (List Nat)).getD
        (List.range ([0, 2, 2, 5].length - 1))
     (SliceCSCIndptr [0, 2, 2, 5] (some [2, 0])).1.length = ns.length + 1 ∧
     (SliceCSCIndptr [0, 2, 2, 5] (some [2, 0])).2.length = ns.length ∧
     ∀ j, j < ns.length →
       (SliceCSCIndptr [0, 2, 2, 5] (some [2, 0])).1.getD j 0
         = [0, 2, 2, 5].getD (ns.getD j 0 + 1) 0
           - [0, 2, 2, 5].getD (ns.getD j 0) 0 ∧
       (SliceCSCIndptr [0, 2, 2, 5] (some [2, 0])).2.getD j 0
         = [0, 2, 2, 5].getD (ns.getD j 0) 0) :=
  ⟨by decide, by decide,
    sliceCSCIndptr_spec [0, 2, 2, 5] (some [2, 0]) (by decide) (by decide)⟩

/-- C5: for every valid offset array, the exclusive prefix sum of the degrees
returned by `SliceCSCIndptr` with the default identity node subset is the
offset array itself. -/
theorem exclusiveCumSum_sliceCSCIndptr_roundtrip (indptr : List Nat)
    (h : ValidIndptr indptr) :
    ExclusiveCumSum (SliceCSCIndptr indptr none).1 = indptr := by
  have hne : indptr.length ≠ 0 := fun h0 => h.1 (List.length_eq_zero.mp h0)
  have hdeg : (SliceCSCIndptr indptr none).1
      = (List.range (indptr.length - 1)).map (degreeOf indptr) ++ [0] := by
    simp [SliceCSCIndptr]
  apply List.ext_getElem
  · simp [ExclusiveCumSum, hdeg]
    omega
  · intro i h1 h2
    have hilt : i < indptr.length := h2
    have hlen : i < (SliceCSCIndptr indptr none).1.length := by
      simp only [ExclusiveCumSum, List.length_map, List.length_range] at h1
      exact h1
    simp only [ExclusiveCumSum, List.getElem_map, List.getElem_range]
    rw [hdeg, List.take_append_of_le_length (by simp; omega),
      ← List.map_take, List.take_range, Nat.min_eq_left (by omega),
      sum_range_degreeOf h hilt, List.getD_eq_getElem indptr 0 hilt]

/-- C5 witness: the round trip evaluated at `indptr = [0,2,5,5]`. -/
theorem exclusiveCumSum_sliceCSCIndptr_roundtrip_witness :
    ValidIndptr [0, 2, 5, 5] ∧
    ExclusiveCumSum (SliceCSCIndptr [0, 2, 5, 5] none).1 = [0, 2, 5, 5] :=
  ⟨by decide, exclusiveCumSum_sliceCSCIndptr_roundtrip _ (by decide)⟩

/-- C4: for every valid CSC input and node subset, `IndexSelectCSC` returns
`new_indptr` equal to the exclusive prefix sum of the selected degrees
(length `M + 1`), and `new_indices` of length `new_indptr[M]` in which the
region starting at `new_indptr[j]` of length `degrees[j]` is exactly the
segment of `indices` of that length starting at `segment_start[j]`. -/
theorem indexSelectCSC_correct (indptr indices nodes : List Nat)
    (h : ValidIndptr indptr)
    (hidx : indices.length = indptr.getD (indptr.length - 1) 0)
    (hn : ∀ n ∈ nodes, n + 1 < indptr.length) :
    let p := (IndexSelectCSCCore indptr indices nodes).1
    let ix := (IndexSelectCSCCore indptr indices nodes).2
    IndexSelectCSCImpl indptr indices nodes none = some (p, ix) ∧
    p.length = nodes.length + 1 ∧
    (∀ j, j ≤ nodes.length →
      p.getD j 0 = ((nodes.take j).map (degreeOf indptr)).sum) ∧
    ix.length = p.getD nodes.length 0 ∧
    (∀ j, j < nodes.length →
      (ix.drop (p.getD j 0)).take (degreeOf indptr (nodes.getD j 0)) =
      (indices.drop (indptr.getD (nodes.getD j 0) 0)).take
        (degreeOf indptr (nodes.getD j 0))) := by
  intro p ix
  set L := nodes.map (fun n =>
    (indices.drop (indptr.getD n 0)).take (degreeOf indptr n)) with hL
  have hDeg : (SliceCSCIndptr indptr (some nodes)).1
      = nodes.map (degreeOf indptr) ++ [0] := by
    simp [SliceCSCIndptr]
  have hplen : p.length = nodes.length + 1 := by
    show (ExclusiveCumSum _).length = _
    rw [exclusiveCumSum_length, hDeg]
    simp
  have hpget : ∀ j, j ≤ nodes.length →
      p.getD j 0 = ((nodes.take j).map (degreeOf indptr)).sum := by
    intro j hj
    show (ExclusiveCumSum _).getD j 0 = _
    rw [exclusiveCumSum_getD _ (by rw [hDeg]; simp; omega), hDeg,
      List.take_append_of_le_length (by simpa using hj), List.map_take]
  have hmaplen := indexSelectCSCCore_segments h hidx hn
  have hixlen : ix.length = p.getD nodes.length 0 := by
    show L.flatten.length = _
    rw [List.length_flatten, hmaplen, hpget nodes.length le_rfl,
      List.take_length]
  refine ⟨rfl, hplen, hpget, hixlen, ?_⟩
  intro j hj
  have hjL : j < L.length := by simpa [hL] using hj
  have hpsum : p.getD j 0 = ((L.map List.length).take j).sum := by
    rw [hpget j (Nat.le_of_lt hj), hmaplen, List.map_take]
  show (L.flatten.drop (p.getD j 0)).take _ = _
  rw [hpsum, List.drop_sum_flatten, List.drop_eq_getElem_cons hjL,
    List.flatten_cons]
  have hnodej : nodes.getD j 0 = nodes[j] :=
    List.getD_eq_getElem nodes 0 hj
  have hgetL : L[j] = (indices.drop (indptr.getD nodes[j] 0)).take
      (degreeOf indptr nodes[j]) := by
    simp [hL]
  rw [hnodej, List.take_append_of_le_length
    (by rw [hgetL, length_segment h hidx (hn nodes[j] (List.getElem_mem hj))]),
    hgetL, List.take_take, Nat.min_self]

/-- C4 witness: the spec's concrete instance `indptr = [0,2,5,5]`,
`indices = [10,11,20,21,22]`, `nodes = [1,2]`, which yields
`new_indptr = [0,3,3]` and `new_indices = [20,21,22]`. -/
theorem indexSelectCSC_correct_witness :
    IndexSelectCSCImpl [0, 2, 5, 5] [10, 11, 20, 21, 22] [1, 2] none
      = some ([0, 3, 3], [20, 21, 22]) ∧
    (let p := (IndexSelectCSCCore [0, 2, 5, 5] [10, 11, 20, 21, 22] [1, 2]).1
     let ix := (IndexSelectCSCCore [0, 2, 5, 5] [10, 11, 20, 21, 22] [1, 2]).2
     IndexSelectCSCImpl [0, 2, 5, 5] [10, 11, 20, 21, 22] [1, 2] none
       = some (p, ix) ∧
     p.length = ([1, 2] : List Nat).length + 1 ∧
     (∀ j, j ≤ ([1, 2] : List Nat).length →
       p.getD j 0 = (([1, 2].take j).map (degreeOf [0, 2, 5, 5])).sum) ∧
     ix.length = p.getD ([1, 2] : List Nat).length 0 ∧
     (∀ j, j < ([1, 2] : List Nat).length →
       (ix.drop (p.getD j 0)).take (degreeOf [0, 2, 5, 5] ([1, 2].getD j 0)) =
       (List.drop ([0, 2, 5, 5].getD ([1, 2].getD j 0) 0)
           [10, 11, 20, 21, 22]).take
         (degreeOf [0, 2, 5, 5] ([1, 2].getD j 0)))) :=
  ⟨by decide,
    indexSelectCSC_correct [0, 2, 5, 5] [10, 11, 20, 21, 22] [1, 2]
      (by decide) (by decide) (by decide)⟩

/-- C10: for every valid CSC input and node subset, the `new_indptr` returned
by `IndexSelectCSC` is itself a valid offset array (length `M + 1`, first
entry `0`, non-decreasing) whose last entry is the length of the returned
`new_indices`. -/
theorem indexSelectCSC_output_validIndptr (indptr indices nodes : List Nat)
    (h : ValidIndptr indptr)
    (hidx : indices.length = indptr.getD (indptr.length - 1) 0)
    (hn : ∀ n ∈ nodes, n + 1 < indptr.length) :
    let p := (IndexSelectCSCCore indptr indices nodes).1
    let ix := (IndexSelectCSCCore indptr indices nodes).2
    p.length = nodes.length + 1 ∧ ValidIndptr p ∧
    p.getD nodes.length 0 = ix.length := by
  intro p ix
  have hplen : p.length = nodes.length + 1 := by
    show (ExclusiveCumSum _).length = _
    rw [exclusiveCumSum_length]
    simp [SliceCSCIndptr]
  have hhead : p.getD 0 0 = 0 := by
    show (ExclusiveCumSum _).getD 0 0 = 0
    rw [exclusiveCumSum_getD _ (by simp [SliceCSCIndptr])]
    simp
  have hvalid : ValidIndptr p :=
    ⟨by intro h0; rw [h0] at hplen; simp at hplen, hhead,
      exclusiveCumSum_pairwise _⟩
  have hixlen : ix.length = p.getD nodes.length 0 := by
    show (nodes.map _).flatten.length = _
    rw [List.length_flatten, indexSelectCSCCore_segments h hidx hn]
    show _ = (ExclusiveCumSum _).getD _ 0
    rw [exclusiveCumSum_getD _ (by simp [SliceCSCIndptr]),
      show (SliceCSCIndptr indptr (some nodes)).1
          = nodes.map (degreeOf indptr) ++ [0] by simp [SliceCSCIndptr],
      List.take_append_of_le_length (by simp),
      List.take_of_length_le (by simp)]
  exact ⟨hplen, hvalid, hixlen.symm⟩

/-- C10 witness: the output indptr invariant evaluated at the spec's
concrete `IndexSelectCSC` instance. -/
theorem indexSelectCSC_output_validIndptr_witness :
    (let p := (IndexSelectCSCCore [0, 2, 5, 5] [10, 11, 20, 21, 22] [1, 2]).1
     let ix := (IndexSelectCSCCore [0, 2, 5, 5] [10, 11, 20, 21, 22] [1, 2]).2
     p.length = ([1, 2] : List Nat).length + 1 ∧ ValidIndptr p ∧
     p.getD ([1, 2] : List Nat).length 0 = ix.length) :=
  indexSelectCSC_output_validIndptr [0, 2, 5, 5] [10, 11, 20, 21, 22] [1, 2]
    (by decide) (by decide) (by decide)

/-- C1: when `unique_dst_ids` holds exactly the distinct values of `dst_ids`,
the `unique_ids` returned by `UniqueAndCompact` is duplicate-free, its
element set is the union of `unique_dst_ids`, `src_ids` and `dst_ids`, and
its first `len(unique_dst_ids)` entries are exactly `unique_dst_ids` in
their supplied order. -/
theorem uniqueAndCompact_unique_ids (src dst udst : List Nat) (k : Nat)
    (hU : udst.Nodup) (hSet : ∀ x, x ∈ udst ↔ x ∈ dst) :
    (UniqueAndCompact src dst udst k).1.Nodup ∧
    (∀ x, x ∈ (UniqueAndCompact src dst udst k).1 ↔
      (x ∈ udst ∨ x ∈ src ∨ x ∈ dst)) ∧
    (UniqueAndCompact src dst udst k).1.take udst.length = udst := by
  refine ⟨?_, fun x => mem_uniqueAndCompact_fst src dst udst k x, ?_⟩
  · show (udst ++ dedupExcluding udst (dst ++ src)).Nodup
    rw [List.nodup_append]
    refine ⟨hU, nodup_dedupExcluding _ _, ?_⟩
    intro x hx1 hx2
    exact ((mem_dedupExcluding x _ udst).mp hx2).2 hx1
  · show (udst ++ dedupExcluding udst (dst ++ src)).take udst.length = udst
    exact List.take_left udst _

/-- C1 witness: the spec's concrete instance `src = [5,6]`, `dst = [1,2]`,
`unique_dst = [1,2]`. -/
theorem uniqueAndCompact_unique_ids_witness :
    ([1, 2] : List Nat).Nodup ∧
    ((UniqueAndCompact [5, 6] [1, 2] [1, 2] 0).1.Nodup ∧
     (∀ x, x ∈ (UniqueAndCompact [5, 6] [1, 2] [1, 2] 0).1 ↔
       (x ∈ ([1, 2] : List Nat) ∨ x ∈ ([5, 6] : List Nat)
        ∨ x ∈ ([1, 2] : List Nat))) ∧
     (UniqueAndCompact [5, 6] [1, 2] [1, 2] 0).1.take
        ([1, 2] : List Nat).length = [1, 2]) :=
  ⟨by decide,
    uniqueAndCompact_unique_ids [5, 6] [1, 2] [1, 2] 0 (by decide)
      (fun x => Iff.rfl)⟩

/-- C2: when `unique_dst_ids` holds exactly the distinct values of `dst_ids`,
the entries of `unique_ids` after the first `len(unique_dst_ids)` positions
are exactly the distinct identifiers of the scan of `dst_ids` followed by
`src_ids` that are outside `unique_dst_ids`, without duplicates and ordered
by first occurrence in that scan. -/
theorem uniqueAndCompact_suffix_first_occurrence (src dst udst : List Nat)
    (k : Nat) (hU : udst.Nodup) (hSet : ∀ x, x ∈ udst ↔ x ∈ dst) :
    ((UniqueAndCompact src dst udst k).1.drop udst.length).Nodup ∧
    (∀ x, x ∈ (UniqueAndCompact src dst udst k).1.drop udst.length ↔
      (x ∈ dst ++ src ∧ x ∉ udst)) ∧
    List.Pairwise
      (fun a b => (dst ++ src).indexOf a < (dst ++ src).indexOf b)
      ((UniqueAndCompact src dst udst k).1.drop udst.length) := by
  have ht : (UniqueAndCompact src dst udst k).1.drop udst.length
      = dedupExcluding udst (dst ++ src) :=
    List.drop_left udst _
  rw [ht]
  exact ⟨nodup_dedupExcluding _ _, fun x => mem_dedupExcluding x _ _,
    pairwise_indexOf_dedupExcluding _ _⟩

/-- C2 witness: at `src = [5,6]`, `dst = [1,2]`, `unique_dst = [1,2]` the
suffix of `unique_ids` is `[5, 6]`. -/
theorem uniqueAndCompact_suffix_first_occurrence_witness :
    (UniqueAndCompact [5, 6] [1, 2] [1, 2] 0).1.drop
        ([1, 2] : List Nat).length = [5, 6] ∧
    (((UniqueAndCompact [5, 6] [1, 2] [1, 2] 0).1.drop
        ([1, 2] : List Nat).length).Nodup ∧
     (∀ x, x ∈ (UniqueAndCompact [5, 6] [1, 2] [1, 2] 0).1.drop
          ([1, 2] : List Nat).length ↔
       (x ∈ ([1, 2] ++ [5, 6] : List Nat) ∧ x ∉ ([1, 2] : List Nat))) ∧
     List.Pairwise (fun a b => ([1, 2] ++ [5, 6] : List Nat).indexOf a
        < ([1, 2] ++ [5, 6] : List Nat).indexOf b)
       ((UniqueAndCompact [5, 6] [1, 2] [1, 2] 0).1.drop
         ([1, 2] : List Nat).length)) :=
  ⟨by decide,
    uniqueAndCompact_suffix_first_occurrence [5, 6] [1, 2] [1, 2] 0
      (by decide) (fun x => Iff.rfl)⟩

/-- C3: when `unique_dst_ids` holds exactly the distinct values of `dst_ids`,
the compacted arrays have the lengths of `src_ids`/`dst_ids`, and reading
`unique_ids` back at each compacted entry recovers the original ID: each
compacted entry is the position of its original ID inside `unique_ids`. -/
theorem uniqueAndCompact_compacted_positions (src dst udst : List Nat)
    (k : Nat) (hU : udst.Nodup) (hSet : ∀ x, x ∈ udst ↔ x ∈ dst) :
    (UniqueAndCompact src dst udst k).2.1.length = src.length ∧
    (UniqueAndCompact src dst udst k).2.2.length = dst.length ∧
    (∀ i, i < src.length →
      (UniqueAndCompact src dst udst k).1.getD
        ((UniqueAndCompact src dst udst k).2.1.getD i 0) 0 = src.getD i 0) ∧
    (∀ i, i < dst.length →
      (UniqueAndCompact src dst udst k).1.getD
        ((UniqueAndCompact src dst udst k).2.2.getD i 0) 0
        = dst.getD i 0) := by
  refine ⟨by simp [UniqueAndCompact], by simp [UniqueAndCompact], ?_, ?_⟩
  · intro i hi
    have hmap : (UniqueAndCompact src dst udst k).2.1.getD i 0
        = (UniqueAndCompact src dst udst k).1.indexOf (src.getD i 0) :=
      getD_map_of_lt (fun x => (UniqueAndCompact src dst udst k).1.indexOf x)
        src hi 0 0
    rw [hmap]
    exact getD_indexOf ((mem_uniqueAndCompact_fst src dst udst k _).mpr
      (Or.inr (Or.inl (getD_self_mem hi))))
  · intro i hi
    have hmap : (UniqueAndCompact src dst udst k).2.2.getD i 0
        = (UniqueAndCompact src dst udst k).1.indexOf (dst.getD i 0) :=
      getD_map_of_lt (fun x => (UniqueAndCompact src dst udst k).1.indexOf x)
        dst hi 0 0
    rw [hmap]
    exact getD_indexOf ((mem_uniqueAndCompact_fst src dst udst k _).mpr
      (Or.inr (Or.inr (getD_self_mem hi))))

/-- C3 witness: the compaction round trip at the spec's concrete instance. -/
theorem uniqueAndCompact_compacted_positions_witness :
    ([1, 2] : List Nat).Nodup ∧
    ((UniqueAndCompact [5, 6] [1, 2] [1, 2] 0).2.1.length
        = ([5, 6] : List Nat).length ∧
     (UniqueAndCompact [5, 6] [1, 2] [1, 2] 0).2.2.length
        = ([1, 2] : List Nat).length ∧
     (∀ i, i < ([5, 6] : List Nat).length →
        (UniqueAndCompact [5, 6] [1, 2] [1, 2] 0).1.getD
          ((UniqueAndCompact [5, 6] [1, 2] [1, 2] 0).2.1.getD i 0) 0
          = [5, 6].getD i 0) ∧
     (∀ i, i < ([1, 2] : List Nat).length →
        (UniqueAndCompact [5, 6] [1, 2] [1, 2] 0).1.getD
          ((UniqueAndCompact [5, 6] [1, 2] [1, 2] 0).2.2.getD i 0) 0
          = [1, 2].getD i 0)) :=
  ⟨by decide,
    uniqueAndCompact_compacted_positions [5, 6] [1, 2] [1, 2] 0 (by decide)
      (fun x => Iff.rfl)⟩

/-- C9: when `unique_dst_ids` holds exactly the distinct values of `dst_ids`,
every entry of `compacted_dst` is strictly below `len(unique_dst_ids)`:
destination endpoints are always mapped into the `unique_dst_ids` prefix of
`unique_ids`. -/
theorem uniqueAndCompact_dst_in_prefix (src dst udst : List Nat) (k : Nat)
    (hU : udst.Nodup) (hSet : ∀ x, x ∈ udst ↔ x ∈ dst) :
    ∀ i, i < dst.length →
      ((UniqueAndCompact src dst udst k).2.2).getD i 0 < udst.length := by
  intro i hi
  have hmap : ((UniqueAndCompact src dst udst k).2.2).getD i 0
      = ((UniqueAndCompact src dst udst k).1).indexOf (dst.getD i 0) :=
    getD_map_of_lt (fun x => _) dst hi 0 0
  rw [hmap]
  have hxu : dst.getD i 0 ∈ udst := (hSet _).mpr (getD_self_mem hi)
  show (udst ++ dedupExcluding udst (dst ++ src)).indexOf _ < _
  rw [List.indexOf_append_of_mem hxu]
  exact List.indexOf_lt_length.mpr hxu

/-- C9 witness: at the spec's concrete instance both compacted destination
entries land in the two-element prefix. -/
theorem uniqueAndCompact_dst_in_prefix_witness :
    ([1, 2] : List Nat).Nodup ∧
    ∀ i, i < ([1, 2] : List Nat).length →
      ((UniqueAndCompact [5, 6] [1, 2] [1, 2] 0).2.2).getD i 0
        < ([1, 2] : List Nat).length :=
  ⟨by decide,
    uniqueAndCompact_dst_in_prefix [5, 6] [1, 2] [1, 2] 0 (by decide)
      (fun x => Iff.rfl)⟩

/-- C7: a supplied `output_size` hint inconsistent with the true computed
output size makes `IndexSelectCSC` and `IndptrExpand` fail (returning no
output at all, so nothing partial is observable), and a successful call
returns exactly the full computed output — never a truncated or padded
one. -/
theorem output_size_hint_checked (indptr indices nodes : List Nat) (sz : Nat)
    (indptr2 : List Nat) (ids2 : Option (List Nat)) (sz2 : Nat) :
    (sz ≠ (IndexSelectCSCCore indptr indices nodes).2.length →
      IndexSelectCSCImpl indptr indices nodes (some sz) = none) ∧
    (∀ r, IndexSelectCSCImpl indptr indices nodes (some sz) = some r →
      r = IndexSelectCSCCore indptr indices nodes) ∧
    (sz2 ≠ (ExpandIndptrCore indptr2 ids2).length →
      ExpandIndptrImpl indptr2 ids2 (some sz2) = none) ∧
    (∀ r, ExpandIndptrImpl indptr2 ids2 (some sz2) = some r →
      r = ExpandIndptrCore indptr2 ids2) := by
  refine ⟨?_, ?_, ?_, ?_⟩
  · intro hne
    show (if sz = (IndexSelectCSCCore indptr indices nodes).2.length
      then some (IndexSelectCSCCore indptr indices nodes) else none) = none
    rw [if_neg hne]
  · intro r hr
    have hr' : (if sz = (IndexSelectCSCCore indptr indices nodes).2.length
        then some (IndexSelectCSCCore indptr indices nodes) else none)
        = some r := hr
    by_cases hsz : sz = (IndexSelectCSCCore indptr indices nodes).2.length
    · rw [if_pos hsz] at hr'
      exact (Option.some.inj hr').symm
    · rw [if_neg hsz] at hr'
      exact absurd hr' (by simp)
  · intro hne
    show (if sz2 = (ExpandIndptrCore indptr2 ids2).length
      then some (ExpandIndptrCore indptr2 ids2) else none) = none
    rw [if_neg hne]
  · intro r hr
    have hr' : (if sz2 = (ExpandIndptrCore indptr2 ids2).length
        then some (ExpandIndptrCore indptr2 ids2) else none)
        = some r := hr
    by_cases hsz : sz2 = (ExpandIndptrCore indptr2 ids2).length
    · rw [if_pos hsz] at hr'
      exact (Option.some.inj hr').symm
    · rw [if_neg hsz] at hr'
      exact absurd hr' (by simp)

/-- C7 witness: a wrong size hint of 5 against a true output of 1 edge makes
`IndexSelectCSC` return nothing, and a wrong hint of 7 against the
3-element expansion of `[0,2,3]` makes `IndptrExpand` return nothing. -/
theorem output_size_hint_checked_witness :
    (5 ≠ (IndexSelectCSCCore [0, 1] [9] [0]).2.length ∧
     IndexSelectCSCImpl [0, 1] [9] [0] (some 5) = none) ∧
    (7 ≠ (ExpandIndptrCore [0, 2, 3] none).length ∧
     ExpandIndptrImpl [0, 2, 3] none (some 7) = none) :=
  ⟨⟨by decide,
     (output_size_hint_checked [0, 1] [9] [0] 5 [0, 2, 3] none 7).1
       (by decide)⟩,
   ⟨by decide,
     (output_size_hint_checked [0, 1] [9] [0] 5 [0, 2, 3] none 7).2.2.1
       (by decide)⟩⟩

end Graphbolt
